import Mathlib

/-!
Verification development for the simple-expr-parser repository.

The repository has two core source files:
* `structures.rs`: the expression tree (`Expression`, `Parentheses`), the
  `Operator` type with its two precedence tiers, and the evaluator
  (`Operator::apply`, `Parentheses::apply_ops`, `Parentheses::eval`).
* `parse.rs`: the recursive-descent parser (`parse`, `parse_expr`,
  `parse_paren`, the cursor helpers `next` and `skip_whitespace`) and the
  `ParseError` taxonomy.

The Rust code is embedded shallowly below.  Rust panics (`unwrap`,
`panic!()` in `Parentheses::new`, and the `values[0]` index) are modelled
by an `Option`/dedicated-constructor layer: a result of `none` (for the
evaluator) or `.panic` (for the parser) means the Rust program would
abort.  The `while` loops of the source are modelled as recursive
functions; the parser's mutual recursion is driven by a fuel parameter,
with `.fuel` marking exhaustion of the budget (we prove the initial
budget chosen by `parse` is never exhausted, so `.fuel` is a pure
modelling artefact).

The rational arithmetic comes from the external `fraction` crate, whose
source is not part of this repository; it is modelled from the spec
(exact rational arithmetic on gcd-reduced fractions over a 64-bit
unsigned numerator/denominator domain plus a sign, with division by zero
producing a non-rational `Infinity`/`NaN` value, which
`Operator::apply` pattern-matches into `ZeroDivision`).
-/

/-! ## The numeric domain (modelled from the spec) -/

/-- Maximal value of the fixed-width unsigned integer domain (`u64`). -/
def U64MAX : Nat := 18446744073709551615

/-- Modelled from the spec: an exact rational number in canonical reduced
form — numerator and denominator coprime, denominator positive, with the
sign carried by the integer numerator.  This models the payload of the
`fraction` crate's `Fraction::Rational` variant (a sign plus a reduced
`Ratio<u64>`), whose source is not part of this repository. -/
structure Ratl where
  num : Int
  den : Nat
deriving DecidableEq

/-- Reduce the fraction `n / d` (with `d ≠ 0`) to canonical form by
dividing both parts by their greatest common divisor. -/
def Ratl.norm (n : Int) (d : Nat) : Ratl :=
  let g := Nat.gcd n.natAbs d
  ⟨n / (g : Int), d / g⟩

/-- The rational value of a `u64` integer literal. -/
def Ratl.ofNat (n : Nat) : Ratl := ⟨(n : Int), 1⟩

/-- Modelled from the spec: a reduced rational is representable in the
64-bit domain when its (reduced) numerator magnitude and denominator both
fit in a `u64`. -/
def Ratl.fits (q : Ratl) : Bool := q.num.natAbs ≤ U64MAX && q.den ≤ U64MAX

/-- Exact rational addition, result in canonical reduced form. -/
def Ratl.add (a b : Ratl) : Ratl :=
  Ratl.norm (a.num * (b.den : Int) + b.num * (a.den : Int)) (a.den * b.den)

/-- Exact rational subtraction, result in canonical reduced form. -/
def Ratl.sub (a b : Ratl) : Ratl :=
  Ratl.norm (a.num * (b.den : Int) - b.num * (a.den : Int)) (a.den * b.den)

/-- Exact rational multiplication, result in canonical reduced form. -/
def Ratl.mul (a b : Ratl) : Ratl :=
  Ratl.norm (a.num * b.num) (a.den * b.den)

/-- Exact rational division (multiply by the reciprocal), for a divisor
that is not zero; result in canonical reduced form. -/
def Ratl.div (a b : Ratl) : Ratl :=
  Ratl.norm (if b.num < 0 then -(a.num * (b.den : Int)) else a.num * (b.den : Int))
    (a.den * b.num.natAbs)

/-- Modelled from the spec: the `fraction` crate's `Fraction` type — a
genuine rational, or the non-rational sentinels `Infinity` and `NaN`
that the crate produces for division by zero (the spec's "the original
numeric library encodes zero-denominator results as a special
non-rational value"). -/
inductive Fraction where
  | Rational (q : Ratl)
  | Infinity (neg : Bool)
  | NaN
deriving DecidableEq

/-- Modelled from the spec: checked rational addition — `none` when the
exact reduced result does not fit the 64-bit domain.  Non-rational
operands (never produced by the evaluator, whose errors short-circuit
before a non-rational value can enter the value queue) propagate `NaN`. -/
def Fraction.checked_add : Fraction → Fraction → Option Fraction
  | .Rational a, .Rational b =>
    let s := a.add b
    if s.fits then some (.Rational s) else none
  | _, _ => some .NaN

/-- Modelled from the spec: checked rational subtraction. -/
def Fraction.checked_sub : Fraction → Fraction → Option Fraction
  | .Rational a, .Rational b =>
    let s := a.sub b
    if s.fits then some (.Rational s) else none
  | _, _ => some .NaN

/-- Modelled from the spec: checked rational multiplication. -/
def Fraction.checked_mul : Fraction → Fraction → Option Fraction
  | .Rational a, .Rational b =>
    let s := a.mul b
    if s.fits then some (.Rational s) else none
  | _, _ => some .NaN

/-- Modelled from the spec: checked rational division.  A zero divisor
yields the crate's non-rational sentinel (`Infinity`, or `NaN` for
`0 / 0`) rather than an overflow; otherwise the exact reduced quotient
is checked against the 64-bit domain. -/
def Fraction.checked_div : Fraction → Fraction → Option Fraction
  | .Rational a, .Rational b =>
    if b.num = 0 then
      some (if a.num = 0 then .NaN else .Infinity (decide (a.num < 0)))
    else
      let s := a.div b
      if s.fits then some (.Rational s) else none
  | _, _ => some .NaN

/-! ## structures.rs -/

/-- The four binary operators (`Operator` in structures.rs). -/
inductive Operator where
  | Add
  | Sub
  | Mul
  | Div
deriving DecidableEq

/-- The two evaluation-time errors (`EvaluationError` in structures.rs). -/
inductive EvaluationError where
  | ZeroDivision
  | Overflow
deriving DecidableEq

/-- Result type of evaluation (`EvaluationResult` in structures.rs). -/
abbrev EvaluationResult := Except EvaluationError Fraction

/-- Transcription of `Operator::apply`: checked arithmetic, `Overflow` on a
`None` from the checked operation; for `Div`, a raw result that is not a
genuine `Rational` is reported as `ZeroDivision`. -/
def Operator.apply : Operator → Fraction → Fraction → EvaluationResult
  | .Add, left, right =>
    match left.checked_add right with
    | some v => .ok v
    | none => .error .Overflow
  | .Sub, left, right =>
    match left.checked_sub right with
    | some v => .ok v
    | none => .error .Overflow
  | .Mul, left, right =>
    match left.checked_mul right with
    | some v => .ok v
    | none => .error .Overflow
  | .Div, left, right =>
    match left.checked_div right with
    | none => .error .Overflow
    | some raw =>
      match raw with
      | .Rational q => .ok (.Rational q)
      | _ => .error .ZeroDivision

/-- Transcription of `Operator::precedence`: tier 0 for `Mul`/`Div`,
tier 1 for `Add`/`Sub`. -/
def Operator.precedence : Operator → Nat
  | .Mul | .Div => 0
  | .Add | .Sub => 1

/-- Transcription of `Operator::from_char`. -/
def Operator.from_char (c : Char) : Option Operator :=
  if c = '+' then some .Add
  else if c = '-' then some .Sub
  else if c = '*' then some .Mul
  else if c = '/' then some .Div
  else none

/-- The expression tree (`Expression` plus the `Parentheses` struct of
structures.rs, with the struct's two fields inlined into the
constructor). -/
inductive Expression where
  | Num (value : Nat)
  | Parentheses (exprs : List Expression) (operators : List Operator)

/-- Transcription of `Parentheses::new`: panics (modelled as `none`) unless
`exprs.len() == operators.len() + 1`. -/
def Parentheses.new (exprs : List Expression) (operators : List Operator) :
    Option Expression :=
  if exprs.length = operators.length + 1 then
    some (.Parentheses exprs operators)
  else
    none

/-- Transcription of the `while let` loop of `Parentheses::apply_ops`.
The deques `res_values` and `res_ops` are represented as lists kept in
reversed order, so the Rust `push_back` is a cons and `pop_back` takes the
head; they are reversed back on return.  A `pop_back` on an empty deque
(the `unwrap`) is modelled as `none`. -/
def Parentheses.apply_ops_go (prc : Nat) :
    List Fraction → List Operator → List Fraction → List Operator →
    Option (Except EvaluationError (List Fraction × List Operator))
  | value :: values, op :: ops, res_values, res_ops =>
    if op.precedence = prc then
      match res_values with
      | [] => none
      | acc :: rvs =>
        match op.apply acc value with
        | .error e => some (.error e)
        | .ok v => Parentheses.apply_ops_go prc values ops (v :: rvs) res_ops
    else
      Parentheses.apply_ops_go prc values ops (value :: res_values) (op :: res_ops)
  | [], _, res_values, res_ops => some (.ok (res_values.reverse, res_ops.reverse))
  | _ :: _, [], res_values, res_ops => some (.ok (res_values.reverse, res_ops.reverse))

/-- Transcription of `Parentheses::apply_ops`: the initial
`values.pop_front().unwrap()` panics (modelled as `none`) on an empty
queue; otherwise the loop runs with `res_values` seeded with the popped
first value. -/
def Parentheses.apply_ops (values : List Fraction) (ops : List Operator)
    (prc : Nat) : Option (Except EvaluationError (List Fraction × List Operator)) :=
  match values with
  | [] => none
  | v :: vs => Parentheses.apply_ops_go prc vs ops [v] []

/-- The tail of `Parentheses::eval` after the operand values have been
computed: the two precedence passes (`for prc in 0..2`) followed by the
`values[0]` index, which panics (modelled as `none`) on an empty queue. -/
def Parentheses.eval_values (values : List Fraction) (ops : List Operator) :
    Option EvaluationResult :=
  match Parentheses.apply_ops values ops 0 with
  | none => none
  | some (.error e) => some (.error e)
  | some (.ok (v1, o1)) =>
    match Parentheses.apply_ops v1 o1 1 with
    | none => none
    | some (.error e) => some (.error e)
    | some (.ok (v2, _)) =>
      match v2 with
      | [] => none
      | v :: _ => some (.ok v)

mutual

/-- Transcription of `Expression::eval` and `Parentheses::eval`: a literal
becomes a rational, a group evaluates all operands (short-circuiting on
the first error) and then resolves the two precedence tiers.  The outer
`Option` layer models Rust panics. -/
def Expression.eval : Expression → Option EvaluationResult
  | .Num value => some (.ok (.Rational (Ratl.ofNat value)))
  | .Parentheses exprs ops =>
    match Expression.eval_list exprs with
    | none => none
    | some (.error e) => some (.error e)
    | some (.ok values) => Parentheses.eval_values values ops

/-- The operand-evaluation loop of `Parentheses::eval` (`for expr in
self.exprs.iter() { values.push_back(expr.eval()?); }`). -/
def Expression.eval_list : List Expression → Option (Except EvaluationError (List Fraction))
  | [] => some (.ok [])
  | e :: es =>
    match Expression.eval e with
    | none => none
    | some (.error er) => some (.error er)
    | some (.ok v) =>
      match Expression.eval_list es with
      | none => none
      | some (.error er) => some (.error er)
      | some (.ok vs) => some (.ok (v :: vs))

end

mutual

/-- Structural well-formedness of an expression tree: every group satisfies
the `Parentheses::new` invariant `exprs.len() == operators.len() + 1`,
recursively. -/
def Expression.well_formed : Expression → Bool
  | .Num _ => true
  | .Parentheses exprs ops =>
    exprs.length == ops.length + 1 && Expression.well_formed_list exprs

/-- Well-formedness of every member of a list of expressions. -/
def Expression.well_formed_list : List Expression → Bool
  | [] => true
  | e :: es => Expression.well_formed e && Expression.well_formed_list es

end

/-! ## parse.rs -/

/-- The parse-error taxonomy (`ParseError` in parse.rs; the source spells
the first two variants `Excepted...`, the spec calls them `Expected...`). -/
inductive ParseError where
  | ExceptedExpr (c : Option Char) (offset : Nat)
  | ExceptedOp (c : Char) (offset : Nat)
  | InvalidCloseParenthese (offset : Nat)
  | UncloseParentheses
  | Overflow (num : String)
deriving DecidableEq

/-- Outcome of a parser function.  `.panic` models a Rust panic; `.fuel`
models exhaustion of the recursion budget the embedding threads through
the mutually recursive parser (proved unreachable for the budget used by
`parse`). -/
inductive PRes (α : Type) where
  | panic
  | fuel
  | err (e : ParseError)
  | ok (a : α)

/-- Transcription of Rust `char::len_utf8`, on the scalar value. -/
def lenUtf8 (c : Char) : Nat :=
  if c.toNat < 0x80 then 1
  else if c.toNat < 0x800 then 2
  else if c.toNat < 0x10000 then 3
  else 4

/-- Transcription of Rust `char::is_ascii_digit`. -/
def isAsciiDigit (c : Char) : Bool :=
  decide (48 ≤ c.toNat ∧ c.toNat ≤ 57)

/-- Transcription of Rust `char::is_whitespace`: membership of the Unicode
White_Space set. -/
def isRustWhitespace (c : Char) : Bool :=
  decide ((9 ≤ c.toNat ∧ c.toNat ≤ 13) ∨ c.toNat = 32 ∨ c.toNat = 133 ∨
    c.toNat = 160 ∨ c.toNat = 5760 ∨ (8192 ≤ c.toNat ∧ c.toNat ≤ 8202) ∨
    c.toNat = 8232 ∨ c.toNat = 8233 ∨ c.toNat = 8239 ∨ c.toNat = 8287 ∨
    c.toNat = 12288)

/-- Transcription of `skip_whitespace`: advance the cursor past leading
whitespace, adding each skipped character's UTF-8 length to the byte
offset.  (The source phrases this as a loop calling `next`, which itself
re-enters `skip_whitespace`; the net effect is this direct recursion.) -/
def skip_whitespace : List Char → Nat → List Char × Nat
  | [], offset => ([], offset)
  | c :: cs, offset =>
    if isRustWhitespace c then skip_whitespace cs (offset + lenUtf8 c)
    else (c :: cs, offset)

/-- Transcription of `next` for a non-empty cursor `c :: cs`: consume `c`,
advance the byte offset by its UTF-8 length, then skip whitespace.  The
source's `text.chars().next().unwrap()` can only panic on an empty
cursor; every call site in parse.rs first peeks a character, which is why
this embedding takes the peeked character as an argument. -/
def next (c : Char) (cs : List Char) (offset : Nat) : List Char × Nat :=
  skip_whitespace cs (offset + lenUtf8 c)

/-- Transcription of the digit loop in `parse_expr`: while the next
character is an ASCII digit, consume it with `next` (which also skips any
following whitespace) and append it to the literal text `num`.  The loop
consumes at least one character per iteration, so the recursion budget
`text.length` that `parse_expr` passes in is never exhausted; the
budget-exhausted clause is a pure modelling artefact. -/
def scan_digits : Nat → List Char → Nat → List Char → List Char × Nat × List Char
  | 0, text, offset, num => (text, offset, num)
  | fuel + 1, text, offset, num =>
    match text with
    | [] => ([], offset, num)
    | c :: cs =>
      if isAsciiDigit c then
        match next c cs offset with
        | (t, o) => scan_digits fuel t o (num ++ [c])
      else
        (c :: cs, offset, num)

/-- Numeric value of a run of ASCII digit characters. -/
def digits_val (ds : List Char) : Nat :=
  ds.foldl (fun a c => a * 10 + (c.toNat - 48)) 0

/-- Transcription of `num.parse::<u64>()` for the scanned literal: `none`
(a parse failure, reported as `Overflow`) when the run is empty or its
value exceeds the `u64` domain. -/
def parse_u64 (ds : List Char) : Option Nat :=
  if ds.isEmpty then none
  else if digits_val ds ≤ U64MAX then some (digits_val ds) else none

mutual

/-- Transcription of `parse_expr`: a digit starts a numeric literal
(scanned by `scan_digits`, converted by `parse_u64`, overflow reported
with the literal's text), `(` starts a nested group, anything else —
including end of input — is `ExceptedExpr` at the current offset. -/
def parse_expr : Nat → List Char → Nat → PRes (Expression × List Char × Nat)
  | 0, _, _ => .fuel
  | fuel + 1, text, offset =>
    match text with
    | [] => .err (.ExceptedExpr none offset)
    | c :: cs =>
      if isAsciiDigit c then
        match scan_digits (c :: cs).length (c :: cs) offset [] with
        | (t, o, num) =>
          match parse_u64 num with
          | some n => .ok (.Num n, t, o)
          | none => .err (.Overflow (String.mk num))
      else if c = '(' then
        match next c cs offset with
        | (t, o) =>
          match parse_paren fuel t o false with
          | .ok r => .ok r
          | .err e => .err e
          | .panic => .panic
          | .fuel => .fuel
      else
        .err (.ExceptedExpr (some c) offset)

/-- Transcription of the head of `parse_paren`: parse the first operand,
then enter the operator/operand loop with singleton `exprs` and empty
`ops` accumulators. -/
def parse_paren : Nat → List Char → Nat → Bool → PRes (Expression × List Char × Nat)
  | 0, _, _, _ => .fuel
  | fuel + 1, text, offset, outermost =>
    match parse_expr fuel text offset with
    | .ok (e, t, o) => parse_paren_loop fuel t o outermost [e] []
    | .err e => .err e
    | .panic => .panic
    | .fuel => .fuel

/-- Transcription of the `while let` loop of `parse_paren`: an operator
character is consumed and followed by another operand; `)` closes the
group when not outermost (`InvalidCloseParenthese` otherwise); any other
character is `ExceptedOp`; end of input closes an outermost group and is
`UncloseParentheses` otherwise.  The group is built with
`Parentheses.new`, whose panic is modelled as `.panic`. -/
def parse_paren_loop : Nat → List Char → Nat → Bool → List Expression →
    List Operator → PRes (Expression × List Char × Nat)
  | 0, _, _, _, _, _ => .fuel
  | fuel + 1, text, offset, outermost, exprs, ops =>
    match text with
    | c :: cs =>
      match Operator.from_char c with
      | some op =>
        match next c cs offset with
        | (t, o) =>
          match parse_expr fuel t o with
          | .ok (e, t2, o2) =>
            parse_paren_loop fuel t2 o2 outermost (exprs ++ [e]) (ops ++ [op])
          | .err er => .err er
          | .panic => .panic
          | .fuel => .fuel
      | none =>
        if c = ')' then
          if outermost then
            .err (.InvalidCloseParenthese offset)
          else
            match next c cs offset with
            | (t, o) =>
              match Parentheses.new exprs ops with
              | some p => .ok (p, t, o)
              | none => .panic
        else
          .err (.ExceptedOp c offset)
    | [] =>
      if outermost then
        match Parentheses.new exprs ops with
        | some p => .ok (p, [], offset)
        | none => .panic
      else
        .err .UncloseParentheses

end

/-- Transcription of `parse` on the character list of the input: skip
leading whitespace, then parse an outermost group.  The fuel budget
`2 * length + 2` is proved sufficient below (`parse` never returns
`.fuel`). -/
def parse_chars (cs : List Char) : PRes Expression :=
  match skip_whitespace cs 0 with
  | (t, o) =>
    match parse_paren (2 * cs.length + 2) t o true with
    | .ok (e, _, _) => .ok e
    | .err e => .err e
    | .panic => .panic
    | .fuel => .fuel

/-- Transcription of `parse`: the public entry point on a string. -/
def parse (input : String) : PRes Expression :=
  parse_chars input.data

/-! ## Specification-level reference semantics for precedence resolution -/

/-- Modelled from the spec's words (refinement reference for the evaluator):
walk the sequence for one precedence tier maintaining an accumulator; an
operator of the current tier combines the accumulator with the next value
(left operand = accumulator); any other operator flushes the accumulator
into the output and restarts the accumulator at the next value.  Returns
the first surviving value and the surviving (operator, value) pairs. -/
def spec_tier_pass (prc : Nat) : Fraction → List (Operator × Fraction) →
    Except EvaluationError (Fraction × List (Operator × Fraction))
  | acc, [] => .ok (acc, [])
  | acc, (op, v) :: rest =>
    if op.precedence = prc then
      match op.apply acc v with
      | .error e => .error e
      | .ok acc2 => spec_tier_pass prc acc2 rest
    else
      match spec_tier_pass prc v rest with
      | .error e => .error e
      | .ok (w, out) => .ok (acc, (op, w) :: out)

/-- Modelled from the spec's words (refinement reference for the evaluator):
evaluate all operands, then resolve precedence by two sequential
left-to-right collapsing passes, tier 0 (`Mul`/`Div`) first, tier 1
(`Add`/`Sub`) second; the single surviving value is the group's result. -/
def spec_group_eval (exprs : List Expression) (ops : List Operator) :
    Option EvaluationResult :=
  match Expression.eval_list exprs with
  | none => none
  | some (.error e) => some (.error e)
  | some (.ok []) => none
  | some (.ok (v :: vs)) =>
    match spec_tier_pass 0 v (ops.zip vs) with
    | .error e => some (.error e)
    | .ok (w, rest) =>
      match spec_tier_pass 1 w rest with
      | .error e => some (.error e)
      | .ok (u, _) => some (.ok u)

/-! ## Helper lemmas: the evaluator implements the two-tier pass -/

theorem apply_ops_go_eq (prc : Nat) (vs : List Fraction) (os : List Operator)
    (acc : Fraction) (rvs : List Fraction) (ros : List Operator) :
    Parentheses.apply_ops_go prc vs os (acc :: rvs) ros =
      match spec_tier_pass prc acc (os.zip vs) with
      | .error e => some (.error e)
      | .ok (w, out) =>
        some (.ok (rvs.reverse ++ w :: out.map Prod.snd,
                   ros.reverse ++ out.map Prod.fst)) := by
  induction vs generalizing os acc rvs ros with
  | nil =>
    cases os <;> simp [Parentheses.apply_ops_go, spec_tier_pass]
  | cons v vs ih =>
    cases os with
    | nil => simp [Parentheses.apply_ops_go, spec_tier_pass]
    | cons op os =>
      rw [show (op :: os).zip (v :: vs) = (op, v) :: os.zip vs from rfl]
      rw [Parentheses.apply_ops_go, spec_tier_pass]
      by_cases hp : op.precedence = prc
      · simp only [if_pos hp]
        cases h : op.apply acc v with
        | error e => simp [h]
        | ok w => simp [h, ih]
      · simp only [if_neg hp]
        rw [ih]
        cases h : spec_tier_pass prc v (os.zip vs) with
        | error e => simp [h]
        | ok p =>
          cases p with
          | mk w out => simp [h]

theorem zip_map_fst_snd (l : List (Operator × Fraction)) :
    (l.map Prod.fst).zip (l.map Prod.snd) = l := by
  induction l with
  | nil => rfl
  | cons p l ih => cases p; simp [ih]

/-- The evaluator's group evaluation coincides with the spec-level
two-tier description, for every operand/operator sequence (including the
degenerate ones never built by the parser). -/
theorem eval_group_eq_spec (exprs : List Expression) (ops : List Operator) :
    Expression.eval (.Parentheses exprs ops) = spec_group_eval exprs ops := by
  rw [Expression.eval, spec_group_eval]
  cases hl : Expression.eval_list exprs with
  | none => rfl
  | some r =>
    cases r with
    | error e => rfl
    | ok values =>
      cases values with
      | nil => rfl
      | cons v vs =>
        show Parentheses.eval_values (v :: vs) ops = _
        rw [Parentheses.eval_values]
        simp only [Parentheses.apply_ops, apply_ops_go_eq]
        cases h0 : spec_tier_pass 0 v (ops.zip vs) with
        | error e => rfl
        | ok p =>
          cases p with
          | mk w out =>
            simp only [List.reverse_nil, List.nil_append]
            simp only [Parentheses.apply_ops, apply_ops_go_eq, zip_map_fst_snd]
            cases h1 : spec_tier_pass 1 w out with
            | error e => rfl
            | ok q =>
              cases q with
              | mk u out2 => rfl

/-! ## Helper lemmas: characters and the cursor -/

theorem isAsciiDigit_not_ws (c : Char) (h : isAsciiDigit c = true) :
    isRustWhitespace c = false := by
  rw [isAsciiDigit, decide_eq_true_eq] at h
  rw [isRustWhitespace, decide_eq_false_iff_not]
  omega

theorem isAsciiDigit_lenUtf8 (c : Char) (h : isAsciiDigit c = true) :
    lenUtf8 c = 1 := by
  rw [isAsciiDigit, decide_eq_true_eq] at h
  rw [lenUtf8, if_pos (by omega)]

theorem skip_whitespace_len (cs : List Char) (offset : Nat) :
    (skip_whitespace cs offset).1.length ≤ cs.length := by
  induction cs generalizing offset with
  | nil => simp [skip_whitespace]
  | cons c cs ih =>
    rw [skip_whitespace]
    split
    · exact Nat.le_trans (ih _) (Nat.le_succ _)
    · exact Nat.le_refl _

theorem next_len (c : Char) (cs : List Char) (offset : Nat) :
    (next c cs offset).1.length ≤ cs.length :=
  skip_whitespace_len cs (offset + lenUtf8 c)

theorem skip_whitespace_no_ws (cs : List Char) (offset : Nat)
    (h : ∀ c rest, cs = c :: rest → isRustWhitespace c = false) :
    skip_whitespace cs offset = (cs, offset) := by
  cases cs with
  | nil => rfl
  | cons c rest => rw [skip_whitespace, if_neg (by simp [h c rest rfl])]

theorem scan_digits_len (fuel : Nat) :
    ∀ text offset num, ((scan_digits fuel text offset num).1).length ≤ text.length := by
  induction fuel with
  | zero => intro text offset num; simp [scan_digits]
  | succ fuel ih =>
    intro text offset num
    cases text with
    | nil => simp [scan_digits]
    | cons c cs =>
      rw [scan_digits]
      by_cases hd : isAsciiDigit c = true
      · simp only [hd, if_true]
        rcases hnx : next c cs offset with ⟨t0, o0⟩
        have h2 : t0.length ≤ cs.length := by
          have := next_len c cs offset
          rw [hnx] at this
          exact this
        have h1 := ih t0 o0 (num ++ [c])
        show (scan_digits fuel t0 o0 (num ++ [c])).1.length ≤ (c :: cs).length
        simp only [List.length_cons]
        omega
      · simp [hd]

theorem scan_digits_head_lt (c : Char) (cs : List Char) (offset : Nat)
    (num : List Char) (hd : isAsciiDigit c = true) :
    (scan_digits (c :: cs).length (c :: cs) offset num).1.length < (c :: cs).length := by
  rw [show (c :: cs).length = cs.length + 1 from rfl, scan_digits]
  simp only [hd, if_true]
  rcases hnx : next c cs offset with ⟨t0, o0⟩
  have h2 : t0.length ≤ cs.length := by
    have := next_len c cs offset
    rw [hnx] at this
    exact this
  have h1 := scan_digits_len cs.length t0 o0 (num ++ [c])
  show (scan_digits cs.length t0 o0 (num ++ [c])).1.length < cs.length + 1
  omega

/-- The digit loop consumes exactly a whitespace-interleaved digit run: on
a text made of a digit run `ds` followed by a stopper (either end of
input, or a character that is neither a digit nor whitespace), it stops
at the stopper with the run appended to the literal and the offset
advanced by one byte per digit.  Any recursion budget of at least
`ds.length` gives this result. -/
theorem scan_digits_run (ds : List Char) :
    ∀ fuel t offset num,
      (∀ d ∈ ds, isAsciiDigit d = true) →
      (∀ c rest, t = c :: rest → isAsciiDigit c = false ∧ isRustWhitespace c = false) →
      ds.length ≤ fuel →
      scan_digits fuel (ds ++ t) offset num = (t, offset + ds.length, num ++ ds) := by
  induction ds with
  | nil =>
    intro fuel t offset num _ hstop _
    cases fuel with
    | zero => simp [scan_digits]
    | succ fuel =>
      cases t with
      | nil => simp [scan_digits]
      | cons c rest =>
        rw [List.nil_append, scan_digits]
        simp [(hstop c rest rfl).1]
  | cons d ds ih =>
    intro fuel t offset num hdig hstop hfuel
    cases fuel with
    | zero => simp at hfuel
    | succ fuel =>
      have hd : isAsciiDigit d = true := hdig d (by simp)
      rw [List.cons_append, scan_digits]
      simp only [hd, if_true]
      rcases hnx : next d (ds ++ t) offset with ⟨t0, o0⟩
      have hskip : skip_whitespace (ds ++ t) (offset + lenUtf8 d) = (ds ++ t, offset + lenUtf8 d) := by
        apply skip_whitespace_no_ws
        intro c rest heq
        cases ds with
        | nil =>
          rw [List.nil_append] at heq
          exact (hstop c rest heq).2
        | cons d2 ds2 =>
          rw [List.cons_append] at heq
          injection heq with h1 h2
          subst h1
          exact isAsciiDigit_not_ws d2 (hdig d2 (by simp))
      rw [next, hskip] at hnx
      cases hnx
      rw [ih fuel t (offset + lenUtf8 d) (num ++ [d])
        (fun e he => hdig e (by simp [he])) hstop (by simpa using hfuel)]
      rw [isAsciiDigit_lenUtf8 d hd]
      simp only [List.length_cons, List.append_assoc, List.singleton_append,
        Prod.mk.injEq, true_and, and_true]
      omega

/-! ## Parser invariants, by induction on the fuel budget -/


theorem parse_len_bound (fuel : Nat) :
    (∀ text offset e t o, parse_expr fuel text offset = .ok (e, t, o) →
      t.length < text.length) ∧
    (∀ text offset b e t o, parse_paren fuel text offset b = .ok (e, t, o) →
      t.length < text.length) ∧
    (∀ text offset b es os e t o,
      parse_paren_loop fuel text offset b es os = .ok (e, t, o) →
      t.length ≤ text.length) := by
  induction fuel with
  | zero =>
    refine ⟨?_, ?_, ?_⟩ <;> intros <;> simp_all [parse_expr, parse_paren, parse_paren_loop]
  | succ fuel ih =>
    obtain ⟨ihE, ihP, ihL⟩ := ih
    refine ⟨?_, ?_, ?_⟩
    · intro text offset e t o h
      cases text with
      | nil => simp [parse_expr] at h
      | cons c cs =>
        rw [parse_expr] at h
        split at h
        · rename_i hd
          split at h
          rename_i t1 o1 num1 hsd
          split at h
          · rename_i n hpu
            simp only [PRes.ok.injEq, Prod.mk.injEq] at h
            obtain ⟨-, ht, -⟩ := h
            subst ht
            have := scan_digits_head_lt c cs offset [] hd
            rw [hsd] at this
            exact this
          · simp at h
        · split at h
          · rename_i hd hc
            split at h
            rename_i t1 o1 hnx
            have ht1 : t1.length ≤ cs.length := by
              have := next_len c cs offset
              rw [hnx] at this
              exact this
            split at h
            · rename_i r hp
              obtain ⟨e1, t2, o2⟩ := r
              simp only [PRes.ok.injEq, Prod.mk.injEq] at h
              obtain ⟨-, ht, -⟩ := h
              subst ht
              have := ihP t1 o1 false e1 t2 o2 hp
              simp only [List.length_cons]
              omega
            · simp at h
            · simp at h
            · simp at h
          · simp at h
    · intro text offset b e t o h
      rw [parse_paren] at h
      split at h
      · rename_i e1 t1 o1 hpe
        have h1 := ihE text offset e1 t1 o1 hpe
        have h2 := ihL t1 o1 b [e1] [] e t o h
        omega
      · simp at h
      · simp at h
      · simp at h
    · intro text offset b es os e t o h
      cases text with
      | nil =>
        rw [parse_paren_loop] at h
        split at h
        · split at h
          · rename_i p hnew
            simp only [PRes.ok.injEq, Prod.mk.injEq] at h
            obtain ⟨-, ht, -⟩ := h
            subst ht
            simp
          · simp at h
        · simp at h
      | cons c cs =>
        rw [parse_paren_loop] at h
        split at h
        · rename_i op hop
          split at h
          rename_i t1 o1 hnx
          have ht1 : t1.length ≤ cs.length := by
            have := next_len c cs offset
            rw [hnx] at this
            exact this
          split at h
          · rename_i e1 t2 o2 hpe
            have h1 := ihE t1 o1 e1 t2 o2 hpe
            have h2 := ihL t2 o2 b (es ++ [e1]) (os ++ [op]) e t o h
            simp only [List.length_cons]
            omega
          · simp at h
          · simp at h
          · simp at h
        · rename_i hop
          split at h
          · split at h
            · simp at h
            · split at h
              rename_i t1 o1 hnx
              have ht1 : t1.length ≤ cs.length := by
                have := next_len c cs offset
                rw [hnx] at this
                exact this
              split at h
              · rename_i p hnew
                simp only [PRes.ok.injEq, Prod.mk.injEq] at h
                obtain ⟨-, ht, -⟩ := h
                subst ht
                simp only [List.length_cons]
                omega
              · simp at h
          · simp at h

theorem parse_no_fuel (fuel : Nat) :
    (∀ text offset, 2 * text.length + 1 ≤ fuel → parse_expr fuel text offset ≠ .fuel) ∧
    (∀ text offset b, 2 * text.length + 2 ≤ fuel → parse_paren fuel text offset b ≠ .fuel) ∧
    (∀ text offset b es os, 2 * text.length + 1 ≤ fuel →
      parse_paren_loop fuel text offset b es os ≠ .fuel) := by
  induction fuel with
  | zero =>
    exact ⟨fun text offset hle => absurd hle (by omega),
           fun text offset b hle => absurd hle (by omega),
           fun text offset b es os hle => absurd hle (by omega)⟩
  | succ fuel ih =>
    obtain ⟨ihE, ihP, ihL⟩ := ih
    refine ⟨?_, ?_, ?_⟩
    · intro text offset hle h
      cases text with
      | nil => simp [parse_expr] at h
      | cons c cs =>
        rw [parse_expr] at h
        simp only [List.length_cons] at hle
        split at h
        · split at h
          rename_i t1 o1 num1 hsd
          split at h <;> simp at h
        · split at h
          · rename_i hd hc
            split at h
            rename_i t1 o1 hnx
            have ht1 : t1.length ≤ cs.length := by
              have := next_len c cs offset
              rw [hnx] at this
              exact this
            split at h
            · simp at h
            · simp at h
            · simp at h
            · rename_i hp
              exact ihP t1 o1 false (by omega) hp
          · simp at h
    · intro text offset b hle h
      rw [parse_paren] at h
      split at h
      · rename_i e1 t1 o1 hpe
        have hb := (parse_len_bound fuel).1 text offset e1 t1 o1 hpe
        exact ihL t1 o1 b [e1] [] (by omega) h
      · simp at h
      · simp at h
      · rename_i hpe
        exact ihE text offset (by omega) hpe
    · intro text offset b es os hle h
      cases text with
      | nil =>
        rw [parse_paren_loop] at h
        split at h
        · split at h <;> simp at h
        · simp at h
      | cons c cs =>
        rw [parse_paren_loop] at h
        simp only [List.length_cons] at hle
        split at h
        · rename_i op hop
          split at h
          rename_i t1 o1 hnx
          have ht1 : t1.length ≤ cs.length := by
            have := next_len c cs offset
            rw [hnx] at this
            exact this
          split at h
          · rename_i e1 t2 o2 hpe
            have hb := (parse_len_bound fuel).1 t1 o1 e1 t2 o2 hpe
            exact ihL t2 o2 b (es ++ [e1]) (os ++ [op]) (by omega) h
          · simp at h
          · simp at h
          · rename_i hpe
            exact ihE t1 o1 (by omega) hpe
        · split at h
          · split at h
            · simp at h
            · split at h
              rename_i t1 o1 hnx
              split at h <;> simp at h
          · simp at h

theorem parse_no_panic (fuel : Nat) :
    (∀ text offset, parse_expr fuel text offset ≠ .panic) ∧
    (∀ text offset b, parse_paren fuel text offset b ≠ .panic) ∧
    (∀ text offset b es os, es.length = os.length + 1 →
      parse_paren_loop fuel text offset b es os ≠ .panic) := by
  induction fuel with
  | zero =>
    refine ⟨?_, ?_, ?_⟩ <;> intros <;> simp [parse_expr, parse_paren, parse_paren_loop]
  | succ fuel ih =>
    obtain ⟨ihE, ihP, ihL⟩ := ih
    refine ⟨?_, ?_, ?_⟩
    · intro text offset h
      cases text with
      | nil => simp [parse_expr] at h
      | cons c cs =>
        rw [parse_expr] at h
        split at h
        · split at h
          rename_i t1 o1 num1 hsd
          split at h <;> simp at h
        · split at h
          · rename_i hd hc
            split at h
            rename_i t1 o1 hnx
            split at h
            · simp at h
            · simp at h
            · rename_i hp
              exact ihP t1 o1 false hp
            · simp at h
          · simp at h
    · intro text offset b h
      rw [parse_paren] at h
      split at h
      · rename_i e1 t1 o1 hpe
        exact ihL t1 o1 b [e1] [] (by simp) h
      · simp at h
      · rename_i hpe
        exact ihE text offset hpe
      · simp at h
    · intro text offset b es os hinv h
      cases text with
      | nil =>
        rw [parse_paren_loop] at h
        split at h
        · rw [Parentheses.new, if_pos hinv] at h
          simp at h
        · simp at h
      | cons c cs =>
        rw [parse_paren_loop] at h
        split at h
        · rename_i op hop
          split at h
          rename_i t1 o1 hnx
          split at h
          · rename_i e1 t2 o2 hpe
            exact ihL t2 o2 b (es ++ [e1]) (os ++ [op]) (by simp [hinv]) h
          · simp at h
          · rename_i hpe
            exact ihE t1 o1 hpe
          · simp at h
        · split at h
          · split at h
            · simp at h
            · split at h
              rename_i t1 o1 hnx
              rw [Parentheses.new, if_pos hinv] at h
              simp at h
          · simp at h

theorem well_formed_list_append (es : List Expression) (e : Expression) :
    Expression.well_formed_list (es ++ [e]) =
      (Expression.well_formed_list es && Expression.well_formed e) := by
  induction es with
  | nil => simp [Expression.well_formed_list]
  | cons e2 es ih =>
    simp only [List.cons_append, Expression.well_formed_list]
    rw [show es.append [e] = es ++ [e] from rfl, ih, Bool.and_assoc]

theorem parse_wf (fuel : Nat) :
    (∀ text offset e t o, parse_expr fuel text offset = .ok (e, t, o) →
      Expression.well_formed e = true) ∧
    (∀ text offset b e t o, parse_paren fuel text offset b = .ok (e, t, o) →
      Expression.well_formed e = true) ∧
    (∀ text offset b es os e t o, Expression.well_formed_list es = true →
      es.length = os.length + 1 →
      parse_paren_loop fuel text offset b es os = .ok (e, t, o) →
      Expression.well_formed e = true) := by
  induction fuel with
  | zero =>
    refine ⟨?_, ?_, ?_⟩ <;> intros <;> simp_all [parse_expr, parse_paren, parse_paren_loop]
  | succ fuel ih =>
    obtain ⟨ihE, ihP, ihL⟩ := ih
    refine ⟨?_, ?_, ?_⟩
    · intro text offset e t o h
      cases text with
      | nil => simp [parse_expr] at h
      | cons c cs =>
        rw [parse_expr] at h
        split at h
        · split at h
          rename_i t1 o1 num1 hsd
          split at h
          · rename_i n hpu
            simp only [PRes.ok.injEq, Prod.mk.injEq] at h
            obtain ⟨he, -, -⟩ := h
            subst he
            rfl
          · simp at h
        · split at h
          · rename_i hd hc
            split at h
            rename_i t1 o1 hnx
            split at h
            · rename_i r hp
              obtain ⟨e1, t2, o2⟩ := r
              simp only [PRes.ok.injEq, Prod.mk.injEq] at h
              obtain ⟨he, -, -⟩ := h
              subst he
              exact ihP t1 o1 false e1 t2 o2 hp
            · simp at h
            · simp at h
            · simp at h
          · simp at h
    · intro text offset b e t o h
      rw [parse_paren] at h
      split at h
      · rename_i e1 t1 o1 hpe
        have hwf1 := ihE text offset e1 t1 o1 hpe
        exact ihL t1 o1 b [e1] [] e t o
          (by simp [Expression.well_formed_list, hwf1]) (by simp) h
      · simp at h
      · simp at h
      · simp at h
    · intro text offset b es os e t o hwf hinv h
      cases text with
      | nil =>
        rw [parse_paren_loop] at h
        split at h
        · rw [Parentheses.new, if_pos hinv] at h
          simp only [PRes.ok.injEq, Prod.mk.injEq] at h
          obtain ⟨he, -, -⟩ := h
          subst he
          simp [Expression.well_formed, hwf, hinv]
        · simp at h
      | cons c cs =>
        rw [parse_paren_loop] at h
        split at h
        · rename_i op hop
          split at h
          rename_i t1 o1 hnx
          split at h
          · rename_i e1 t2 o2 hpe
            have hwf1 := ihE t1 o1 e1 t2 o2 hpe
            exact ihL t2 o2 b (es ++ [e1]) (os ++ [op]) e t o
              (by rw [well_formed_list_append, hwf, hwf1]; rfl) (by simp [hinv]) h
          · simp at h
          · simp at h
          · simp at h
        · split at h
          · split at h
            · simp at h
            · split at h
              rename_i t1 o1 hnx
              rw [Parentheses.new, if_pos hinv] at h
              simp only [PRes.ok.injEq, Prod.mk.injEq] at h
              obtain ⟨he, -, -⟩ := h
              subst he
              simp [Expression.well_formed, hwf, hinv]
          · simp at h

/-! ## Parse-level corollaries -/

theorem parse_chars_no_panic (cs : List Char) : parse_chars cs ≠ .panic := by
  intro h
  rw [parse_chars] at h
  split at h
  rename_i t o hsw
  split at h
  · simp at h
  · simp at h
  · rename_i hp
    exact (parse_no_panic (2 * cs.length + 2)).2.1 t o true hp
  · simp at h

theorem parse_chars_no_fuel (cs : List Char) : parse_chars cs ≠ .fuel := by
  intro h
  rw [parse_chars] at h
  split at h
  rename_i t o hsw
  have ht : t.length ≤ cs.length := by
    have := skip_whitespace_len cs 0
    rw [hsw] at this
    exact this
  split at h
  · simp at h
  · simp at h
  · simp at h
  · rename_i hp
    exact (parse_no_fuel (2 * cs.length + 2)).2.1 t o true (by omega) hp

theorem parse_chars_wf (cs : List Char) (e : Expression)
    (h : parse_chars cs = .ok e) : Expression.well_formed e = true := by
  rw [parse_chars] at h
  split at h
  rename_i t o hsw
  split at h
  · rename_i e1 t1 o1 hp
    simp only [PRes.ok.injEq] at h
    subst h
    exact (parse_wf (2 * cs.length + 2)).2.1 t o true e1 t1 o1 hp
  · simp at h
  · simp at h
  · simp at h

/-! ## Evaluator totality on well-formed trees -/

theorem well_formed_list_mem (es : List Expression) (e : Expression)
    (hm : e ∈ es) (hwf : Expression.well_formed_list es = true) :
    Expression.well_formed e = true := by
  induction es with
  | nil => simp at hm
  | cons e2 es ih =>
    rw [Expression.well_formed_list, Bool.and_eq_true] at hwf
    rcases List.mem_cons.mp hm with he | he
    · subst he
      exact hwf.1
    · exact ih he hwf.2

theorem eval_list_length (es : List Expression) :
    ∀ vs, Expression.eval_list es = some (.ok vs) → vs.length = es.length := by
  induction es with
  | nil =>
    intro vs h
    simp only [Expression.eval_list, Option.some.injEq, Except.ok.injEq] at h
    subst h
    rfl
  | cons e es ih =>
    intro vs h
    rw [Expression.eval_list] at h
    split at h
    · simp at h
    · simp at h
    · rename_i v hv
      split at h
      · simp at h
      · simp at h
      · rename_i vs2 hvs2
        simp only [Option.some.injEq, Except.ok.injEq] at h
        subst h
        simp [ih vs2 hvs2]

theorem eval_list_total (es : List Expression)
    (h : ∀ e ∈ es, ∃ r, Expression.eval e = some r) :
    ∃ r, Expression.eval_list es = some r := by
  induction es with
  | nil => exact ⟨.ok [], rfl⟩
  | cons e es ih =>
    obtain ⟨r, hr⟩ := h e (by simp)
    cases r with
    | error er => exact ⟨.error er, by rw [Expression.eval_list]; simp [hr]⟩
    | ok v =>
      obtain ⟨r2, hr2⟩ := ih (fun e2 hm => h e2 (by simp [hm]))
      cases r2 with
      | error er => exact ⟨.error er, by rw [Expression.eval_list]; simp [hr, hr2]⟩
      | ok vs => exact ⟨.ok (v :: vs), by rw [Expression.eval_list]; simp [hr, hr2]⟩

theorem eval_total : ∀ (n : Nat) (e : Expression), sizeOf e ≤ n →
    Expression.well_formed e = true → ∃ r, Expression.eval e = some r := by
  intro n
  induction n using Nat.strong_induction_on with
  | _ n ih =>
    intro e hsize hwf
    cases e with
    | Num v => exact ⟨.ok (.Rational (Ratl.ofNat v)), rfl⟩
    | Parentheses exprs ops =>
      rw [Expression.well_formed, Bool.and_eq_true] at hwf
      obtain ⟨hlen, hwfl⟩ := hwf
      rw [beq_iff_eq] at hlen
      have hmem : ∀ e2 ∈ exprs, ∃ r, Expression.eval e2 = some r := by
        intro e2 hm
        have h2 := List.sizeOf_lt_of_mem hm
        have h3 : sizeOf (Expression.Parentheses exprs ops) =
            1 + sizeOf exprs + sizeOf ops := by simp
        exact ih (sizeOf e2) (by omega) e2 (Nat.le_refl _)
          (well_formed_list_mem exprs e2 hm hwfl)
      obtain ⟨rl, hrl⟩ := eval_list_total exprs hmem
      rw [eval_group_eq_spec, spec_group_eval]
      cases rl with
      | error er => exact ⟨.error er, by simp only [hrl]⟩
      | ok values =>
        cases values with
        | nil =>
          have := eval_list_length exprs [] hrl
          simp only [List.length_nil] at this
          omega
        | cons v vs =>
          cases h0 : spec_tier_pass 0 v (ops.zip vs) with
          | error e2 => exact ⟨.error e2, by simp only [hrl, h0]⟩
          | ok p =>
            obtain ⟨w, rest⟩ := p
            cases h1 : spec_tier_pass 1 w rest with
            | error e2 => exact ⟨.error e2, by simp only [hrl, h0, h1]⟩
            | ok q =>
              obtain ⟨u, rest2⟩ := q
              exact ⟨.ok u, by simp only [hrl, h0, h1]⟩

/-! ## The numeric-literal path through the parser -/

/-- On a text consisting of a digit run followed by a stopper (end of
input, or a character that is neither a digit nor whitespace),
`parse_expr` consumes exactly the run and produces the literal, or the
parse-time `Overflow` carrying the run's text when its value does not
fit `u64`. -/
theorem parse_digit_run (ds t : List Char) (offset fuel : Nat)
    (h1 : ds ≠ []) (h2 : ∀ d ∈ ds, isAsciiDigit d = true)
    (hstop : ∀ c rest, t = c :: rest →
      isAsciiDigit c = false ∧ isRustWhitespace c = false) :
    parse_expr (fuel + 1) (ds ++ t) offset =
      match parse_u64 ds with
      | some n => .ok (.Num n, t, offset + ds.length)
      | none => .err (.Overflow (String.mk ds)) := by
  cases ds with
  | nil => exact absurd rfl h1
  | cons d ds2 =>
    rw [List.cons_append, parse_expr]
    have hd : isAsciiDigit d = true := h2 d (by simp)
    simp only [hd, if_true]
    have hsr := scan_digits_run (d :: ds2) (d :: (ds2 ++ t)).length t offset [] h2 hstop
      (by simp only [List.length_cons, List.length_append]; omega)
    rw [show (d :: ds2) ++ t = d :: (ds2 ++ t) from rfl] at hsr
    rw [hsr]
    simp only [List.nil_append]

theorem parse_chars_eq (cs t : List Char) (o : Nat)
    (hsw : skip_whitespace cs 0 = (t, o)) :
    parse_chars cs =
      match parse_paren (2 * cs.length + 2) t o true with
      | .ok (e, _, _) => .ok e
      | .err e => .err e
      | .panic => .panic
      | .fuel => .fuel := by
  rw [parse_chars, hsw]

theorem parse_u64_big (ds : List Char) (h1 : ds ≠ [])
    (h3 : U64MAX < digits_val ds) : parse_u64 ds = none := by
  rw [parse_u64, if_neg (by simp [h1]), if_neg (by omega)]

/-- The whole overflow path: an input that is one oversized digit run
fails `parse` with the literal's text, before any evaluation exists. -/
theorem parse_overflow_run (ds : List Char) (h1 : ds ≠ [])
    (h2 : ∀ d ∈ ds, isAsciiDigit d = true) (h3 : U64MAX < digits_val ds) :
    parse (String.mk ds) = .err (.Overflow (String.mk ds)) := by
  have hsw : skip_whitespace ds 0 = (ds, 0) := by
    apply skip_whitespace_no_ws
    intro c rest heq
    exact isAsciiDigit_not_ws c (h2 c (heq ▸ List.mem_cons_self c rest))
  have hpe : parse_expr (2 * ds.length + 1) ds 0 = .err (.Overflow (String.mk ds)) := by
    have h := parse_digit_run ds [] 0 (2 * ds.length) h1 h2 (fun c rest hc => nomatch hc)
    rw [List.append_nil, parse_u64_big ds h1 h3] at h
    exact h
  rw [show parse (String.mk ds) = parse_chars ds from rfl,
    parse_chars_eq ds ds 0 hsw,
    show 2 * ds.length + 2 = (2 * ds.length + 1) + 1 from rfl,
    parse_paren]
  rw [hpe]

/-! ## The claims -/

/-- C1: for every `Group` expression, `eval` resolves the flat
operand/operator sequence with tier-0 operators (`Mul`, `Div`) fully
applied before any tier-1 operator (`Add`, `Sub`), left-to-right within
each tier (the group evaluation coincides with the spec-level two-pass
semantics `spec_group_eval`); in particular `parse("1+2*3").eval()` ==
`parse("1+(2*3)").eval()` == 7 and `parse("3-1*2").eval()` == 1. -/
theorem c1_two_tier_precedence :
    (∀ (exprs : List Expression) (ops : List Operator),
      Expression.eval (.Parentheses exprs ops) = spec_group_eval exprs ops) ∧
    parse "1+2*3" = .ok (.Parentheses [.Num 1, .Num 2, .Num 3] [.Add, .Mul]) ∧
    parse "1+(2*3)" =
      .ok (.Parentheses [.Num 1, .Parentheses [.Num 2, .Num 3] [.Mul]] [.Add]) ∧
    parse "3-1*2" = .ok (.Parentheses [.Num 3, .Num 1, .Num 2] [.Sub, .Mul]) ∧
    Expression.eval (.Parentheses [.Num 1, .Num 2, .Num 3] [.Add, .Mul]) =
      some (.ok (.Rational ⟨7, 1⟩)) ∧
    Expression.eval (.Parentheses [.Num 1, .Parentheses [.Num 2, .Num 3] [.Mul]] [.Add]) =
      some (.ok (.Rational ⟨7, 1⟩)) ∧
    Expression.eval (.Parentheses [.Num 3, .Num 1, .Num 2] [.Sub, .Mul]) =
      some (.ok (.Rational ⟨1, 1⟩)) :=
  ⟨eval_group_eq_spec, rfl, rfl, rfl, rfl, rfl, rfl⟩

/-- C2 counterexample: the claim predicts `parse("1 2")` fails with
`ExpectedOp('2', 2)`, but `next` skips whitespace after every consumed
character — including inside the digit loop — so the two runs merge and
the parse succeeds with the single literal 12. -/
theorem c2_counterexample :
    parse "1 2" = .ok (.Parentheses [.Num 12] []) ∧
    parse "1 2" ≠ .err (.ExceptedOp '2' 2) :=
  ⟨rfl, by
    intro h
    simp only [show parse "1 2" = PRes.ok (.Parentheses [.Num 12] []) from rfl] at h
    exact PRes.noConfusion h⟩

/-- C2 (amended): when the next character is an ASCII digit, `parse_expr`
consumes a maximal run of digits in which whitespace following each
consumed digit is also skipped, producing one numeric literal from the
concatenated digits (or a parse-time Overflow carrying the run's text);
consequently two digit runs separated by whitespace merge into one
literal: `parse("1 2")` succeeds with the literal 12 instead of failing
with `ExpectedOp`. -/
theorem c2_digit_run_merges_ws (fuel : Nat) (ds : List Char) (c : Char)
    (rest : List Char) (offset : Nat) (h1 : ds ≠ [])
    (h2 : ∀ d ∈ ds, isAsciiDigit d = true)
    (h3 : isAsciiDigit c = false) (h4 : isRustWhitespace c = false) :
    (parse_expr (fuel + 1) (ds ++ c :: rest) offset =
      match parse_u64 ds with
      | some n => .ok (.Num n, c :: rest, offset + ds.length)
      | none => .err (.Overflow (String.mk ds))) ∧
    parse "1 2" = .ok (.Parentheses [.Num 12] []) :=
  ⟨parse_digit_run ds (c :: rest) offset fuel h1 h2
    (fun c2 r2 he => by
      injection he with he1 he2
      subst he1
      exact ⟨h3, h4⟩), rfl⟩

/-- C2 witness: the amended theorem applied at the concrete run "1"
stopped by the operator '+'. -/
theorem c2_digit_run_merges_ws_witness :
    (parse_expr 1 ['1', '+', '2'] 0 = .ok (.Num 1, ['+', '2'], 1)) ∧
    parse "1 2" = .ok (.Parentheses [.Num 12] []) := by
  have h := c2_digit_run_merges_ws 0 ['1'] '+' ['2'] 0 (by decide) (by decide)
    (by decide) (by decide)
  exact ⟨h.1, h.2⟩

/-- C3: a division step whose right operand is exactly zero fails with
`ZeroDivision` and never `Overflow`, whatever the left operand is; in
particular `parse("1/0").eval()` fails with `ZeroDivision`. -/
theorem c3_zero_division :
    (∀ (l : Fraction) (q : Ratl), q.num = 0 →
      Operator.apply .Div l (.Rational q) = .error .ZeroDivision) ∧
    parse "1/0" = .ok (.Parentheses [.Num 1, .Num 0] [.Div]) ∧
    Expression.eval (.Parentheses [.Num 1, .Num 0] [.Div]) =
      some (.error .ZeroDivision) := by
  refine ⟨?_, rfl, rfl⟩
  intro l q hq
  cases l with
  | Rational a =>
    by_cases ha : a.num = 0 <;>
      simp [Operator.apply, Fraction.checked_div, hq, ha]
  | Infinity b => simp [Operator.apply, Fraction.checked_div]
  | NaN => simp [Operator.apply, Fraction.checked_div]

/-- C3 witness: the zero-divisor clause applied at 1 / 0. -/
theorem c3_zero_division_witness :
    Operator.apply .Div (.Rational ⟨1, 1⟩) (.Rational ⟨0, 1⟩) =
      .error .ZeroDivision :=
  c3_zero_division.1 (.Rational ⟨1, 1⟩) ⟨0, 1⟩ rfl

/-- C4: expressions produced by a successful parse evaluate without any
panic — `parse` itself never panics (the `Parentheses::new` assertion is
unreachable), and `eval` on a parser-produced tree always returns a
value or a typed evaluation error (never the `none` that models the
internal `unwrap`s and the final `values[0]` index panicking). -/
theorem c4_no_eval_panic :
    (∀ s : String, parse s ≠ .panic) ∧
    (∀ (s : String) (e : Expression), parse s = .ok e →
      ∃ r, Expression.eval e = some r) := by
  constructor
  · intro s
    exact parse_chars_no_panic s.data
  · intro s e h
    exact eval_total (sizeOf e) e (Nat.le_refl _) (parse_chars_wf s.data e h)

/-- C4 witness: the no-panic evaluation clause applied to the parse of
"1+2*3". -/
theorem c4_no_eval_panic_witness :
    ∃ r, Expression.eval (.Parentheses [.Num 1, .Num 2, .Num 3] [.Add, .Mul]) =
      some r :=
  c4_no_eval_panic.2 "1+2*3" (.Parentheses [.Num 1, .Num 2, .Num 3] [.Add, .Mul]) rfl

/-- C5: `parse` reports each malformed input from the spec's list with the
exact variant, offending character and byte offset (the source spells
the variants `ExceptedExpr`/`ExceptedOp` for the spec's
`ExpectedExpr`/`ExpectedOp`). -/
theorem c5_error_reporting :
    parse "" = .err (.ExceptedExpr none 0) ∧
    parse "a" = .err (.ExceptedExpr (some 'a') 0) ∧
    parse "(0" = .err .UncloseParentheses ∧
    parse "(0+)" = .err (.ExceptedExpr (some ')') 3) ∧
    parse "0)" = .err (.InvalidCloseParenthese 1) :=
  ⟨rfl, rfl, rfl, rfl, rfl⟩

/-- C6: checked rational arithmetic fails with an eval-time `Overflow`
exactly when the exact result, reduced to canonical form, does not fit
the 64-bit domain (for division, provided the divisor is not zero); in
particular `parse("10000000000*10000000000").eval()` fails with
`Overflow`. -/
theorem c6_overflow_iff_unrepresentable :
    (∀ a b : Ratl, (Operator.apply .Mul (.Rational a) (.Rational b) =
        .error .Overflow ↔ (a.mul b).fits = false)) ∧
    (∀ a b : Ratl, (Operator.apply .Add (.Rational a) (.Rational b) =
        .error .Overflow ↔ (a.add b).fits = false)) ∧
    (∀ a b : Ratl, (Operator.apply .Sub (.Rational a) (.Rational b) =
        .error .Overflow ↔ (a.sub b).fits = false)) ∧
    (∀ a b : Ratl, b.num ≠ 0 →
      (Operator.apply .Div (.Rational a) (.Rational b) =
        .error .Overflow ↔ (a.div b).fits = false)) ∧
    parse "10000000000*10000000000" =
      .ok (.Parentheses [.Num 10000000000, .Num 10000000000] [.Mul]) ∧
    Expression.eval (.Parentheses [.Num 10000000000, .Num 10000000000] [.Mul]) =
      some (.error .Overflow) := by
  refine ⟨?_, ?_, ?_, ?_, rfl, rfl⟩
  · intro a b
    cases hf : (a.mul b).fits <;>
      simp [Operator.apply, Fraction.checked_mul, hf]
  · intro a b
    cases hf : (a.add b).fits <;>
      simp [Operator.apply, Fraction.checked_add, hf]
  · intro a b
    cases hf : (a.sub b).fits <;>
      simp [Operator.apply, Fraction.checked_sub, hf]
  · intro a b hb
    cases hf : (a.div b).fits <;>
      simp [Operator.apply, Fraction.checked_div, hb, hf]

/-- C6 witness: the division clause applied at 1 / 2 (no overflow on
either side of the equivalence). -/
theorem c6_overflow_iff_unrepresentable_witness :
    Operator.apply .Div (.Rational ⟨1, 1⟩) (.Rational ⟨2, 1⟩) =
      .error .Overflow ↔ (Ratl.div ⟨1, 1⟩ ⟨2, 1⟩).fits = false :=
  c6_overflow_iff_unrepresentable.2.2.2.1 ⟨1, 1⟩ ⟨2, 1⟩ (by decide)

/-- C7: a digit run whose value exceeds the u64 domain fails `parse` with
`Overflow` carrying the literal's textual form (no offset), already at
parse time — the result is a `ParseError`, so no `Expression` exists to
evaluate. -/
theorem c7_parse_time_overflow (ds : List Char) (h1 : ds ≠ [])
    (h2 : ∀ d ∈ ds, isAsciiDigit d = true) (h3 : U64MAX < digits_val ds) :
    parse (String.mk ds) = .err (.Overflow (String.mk ds)) :=
  parse_overflow_run ds h1 h2 h3

/-- C7 witness: the first value beyond the u64 domain, 2^64 =
18446744073709551616, fails at parse time with its own text. -/
theorem c7_parse_time_overflow_witness :
    parse "18446744073709551616" = .err (.Overflow "18446744073709551616") :=
  c7_parse_time_overflow "18446744073709551616".data (by decide) (by decide)
    (by decide)

/-- C8: evaluation is exact over rationals: `parse("1/2*2").eval()` ==
`parse("1").eval()` and `parse("1/(1/2)").eval()` == `parse("2").eval()`
with no loss of precision. -/
theorem c8_exact_rational_round_trip :
    parse "1/2*2" = .ok (.Parentheses [.Num 1, .Num 2, .Num 2] [.Div, .Mul]) ∧
    parse "1" = .ok (.Parentheses [.Num 1] []) ∧
    Expression.eval (.Parentheses [.Num 1, .Num 2, .Num 2] [.Div, .Mul]) =
      Expression.eval (.Parentheses [.Num 1] []) ∧
    parse "1/(1/2)" =
      .ok (.Parentheses [.Num 1, .Parentheses [.Num 1, .Num 2] [.Div]] [.Div]) ∧
    parse "2" = .ok (.Parentheses [.Num 2] []) ∧
    Expression.eval (.Parentheses [.Num 1, .Parentheses [.Num 1, .Num 2] [.Div]] [.Div]) =
      Expression.eval (.Parentheses [.Num 2] []) :=
  ⟨rfl, rfl, rfl, rfl, rfl, rfl⟩

/-- C9: a `Group` with a single operand and no operators evaluates to
exactly the same result as the operand itself: the extra nesting the
parser introduces for parenthesized sub-expressions and the outermost
unit is semantically inert. -/
theorem c9_singleton_group_inert (e : Expression) :
    Expression.eval (.Parentheses [e] []) = Expression.eval e := by
  rw [eval_group_eq_spec, spec_group_eval]
  cases he : Expression.eval e with
  | none => simp [Expression.eval_list, he]
  | some r =>
    cases r with
    | error er => simp [Expression.eval_list, he]
    | ok v => simp [Expression.eval_list, he, spec_tier_pass]

/-- C10: `parse` never panics on any input string: it always returns
either an `Expression` or a `ParseError` (and the recursion budget of
the embedding is never exhausted either). -/
theorem c10_parse_never_panics (s : String) :
    (∃ e, parse s = .ok e) ∨ (∃ er, parse s = .err er) := by
  cases hp : parse s with
  | panic => exact absurd hp (parse_chars_no_panic s.data)
  | fuel => exact absurd hp (parse_chars_no_fuel s.data)
  | ok e => exact Or.inl ⟨e, rfl⟩
  | err er => exact Or.inr ⟨er, rfl⟩
